import Mathlib

/-!
A verification development for a bounded-concurrency worker pool
(`server/src/workers/WorkerPool.ts`) together with its worker-unit script
(`server/src/workers/crypto.worker.ts`).

The pool is embedded as an explicit state machine.  Workers are identified by
natural numbers.  The caller-facing promises are modelled by a map from task
identifiers to a `PromiseState`; `settle` records the raw effect of calling
`resolve` or `reject` on a promise (an overwrite), so that the exactly-once
discipline of the pool is a theorem about the embedding rather than something
baked into the model.
-/

/-- The result object a worker posts back to the pool
(`{success: boolean, error?: string, message?: string}`). -/
structure WResult where
  success : Bool
  error : Option String
  message : Option String
deriving DecidableEq, Repr

/-- The state of a caller-facing promise returned by `runTask`. -/
inductive PromiseState where
  | pending
  | fulfilled (r : WResult)
  | rejected (e : String)
deriving DecidableEq, Repr

/-- A submitted task: the opaque payload together with the identifier of the
promise created for it (`WorkerTask` in the source holds `data`, `resolve`,
`reject`; the identifier stands for the resolve/reject pair). -/
structure WorkerTask where
  id : Nat
  data : Nat
deriving DecidableEq, Repr

/-- The state of a `WorkerPool` instance, plus the bookkeeping the embedding
needs: `inflight` records which worker currently has a `message`/`error`
listener pair attached for which task (`worker.once(...)` in `executeTask`),
`promises` records the state of every promise ever returned by `runTask`,
and `nextId` is the supply of fresh task identifiers. -/
structure PoolState where
  workers : List Nat
  availableWorkers : List Nat
  taskQueue : List WorkerTask
  inflight : List (Nat × WorkerTask)
  promises : Nat → PromiseState
  nextId : Nat
  workerScript : String
  poolSize : Int

/-- Record the effect of calling `resolve`/`reject`: the promise map is
overwritten at `tid`.  (A real JS promise ignores a second settlement; the
embedding uses a raw write so that "no second settlement call happens" is
provable, not assumed.) -/
def settle (ps : Nat → PromiseState) (tid : Nat) (v : PromiseState) :
    Nat → PromiseState :=
  fun k => if k = tid then v else ps k

/-- JavaScript `s || d` for an optional string: `undefined` and the empty
string are falsy. -/
def jsOrString (s : Option String) (d : String) : String :=
  match s with
  | none => d
  | some t => if t = "" then d else t

/-- Look up the task for which worker `w` currently has a listener pair
attached (first match, as for an event-emitter listener list). -/
def findInflight : List (Nat × WorkerTask) → Nat → Option WorkerTask
  | [], _ => none
  | q :: l, w => if q.1 = w then some q.2 else findInflight l w

/-- Detach worker `w`'s listener pair (`worker.off('message', ...)` and
`worker.off('error', ...)`): the first entry for `w` is removed. -/
def removeInflight : List (Nat × WorkerTask) → Nat → List (Nat × WorkerTask)
  | [], _ => []
  | q :: l, w => if q.1 = w then l else q :: removeInflight l w

/-- `constructor` + `initializePool`: create `poolSize` workers (the loop
`for (let i = 0; i < poolSize; i++)` runs `poolSize.toNat` times), pushing
each onto `workers` and `availableWorkers`.  All start idle; the queue is
empty; no promise has been created yet. -/
def initPool (workerScript : String) (poolSize : Int) : PoolState :=
  { workers := List.range poolSize.toNat
    availableWorkers := List.range poolSize.toNat
    taskQueue := []
    inflight := []
    promises := fun _ => .pending
    nextId := 0
    workerScript := workerScript
    poolSize := poolSize }

/-- The `new WorkerPool(workerScript, poolSize)` expression.  `Except.error`
would model a thrown `ConfigurationError`; the source constructor contains no
validation and no throw, so every call returns `Except.ok`. -/
def constructPool (workerScript : String) (poolSize : Int) :
    Except String PoolState :=
  .ok (initPool workerScript poolSize)

/-- `executeTask`: pop a worker off `availableWorkers` (the unchecked
`this.availableWorkers.pop()!`, which is `none` exactly when the list is
empty), attach the `message`/`error` listener pair for `task`, and post the
payload. -/
def executeTask (st : PoolState) (task : WorkerTask) : Option PoolState :=
  match st.availableWorkers.getLast? with
  | none => none
  | some w =>
      some { st with
        availableWorkers := st.availableWorkers.dropLast
        inflight := (w, task) :: st.inflight }

/-- `runTask`: create a fresh promise, wrap the payload into a task, then
either dispatch immediately (if a worker is available) or append the task to
the tail of the queue.  Returns the updated state together with the
identifier of the promise handed to the caller. -/
def runTask (st : PoolState) (data : Nat) : Option (PoolState × Nat) :=
  let tid := st.nextId
  let st1 : PoolState :=
    { st with nextId := tid + 1, promises := settle st.promises tid .pending }
  let task : WorkerTask := { id := tid, data := data }
  if st1.availableWorkers.length > 0 then
    (executeTask st1 task).map (fun st2 => (st2, tid))
  else
    some ({ st1 with taskQueue := st1.taskQueue ++ [task] }, tid)

/-- The `message` listener installed by `executeTask`, fired when worker `w`
posts `result`: detach both listeners, push `w` back onto
`availableWorkers`, dispatch the queue head if the queue is non-empty, then
resolve or reject the task's promise according to `result.success`.  If no
listener pair is attached for `w` the event is dropped. -/
def onMessage (st : PoolState) (w : Nat) (result : WResult) :
    Option PoolState :=
  match findInflight st.inflight w with
  | none => some st
  | some task =>
    let st1 : PoolState :=
      { st with
        inflight := removeInflight st.inflight w
        availableWorkers := st.availableWorkers ++ [w] }
    let st2opt : Option PoolState :=
      match st1.taskQueue with
      | [] => some st1
      | next :: rest => executeTask { st1 with taskQueue := rest } next
    st2opt.map (fun st2 =>
      if result.success then
        { st2 with promises := settle st2.promises task.id (.fulfilled result) }
      else
        { st2 with promises := settle st2.promises task.id (.rejected (jsOrString result.error "Task failed")) })

/-- The `error` listener installed by `executeTask`, fired when worker `w`
emits a worker-level error `e`: detach both listeners, push `w` back onto
`availableWorkers`, dispatch the queue head if the queue is non-empty, then
reject the task's promise with `e`. -/
def onError (st : PoolState) (w : Nat) (e : String) : Option PoolState :=
  match findInflight st.inflight w with
  | none => some st
  | some task =>
    let st1 : PoolState :=
      { st with
        inflight := removeInflight st.inflight w
        availableWorkers := st.availableWorkers ++ [w] }
    let st2opt : Option PoolState :=
      match st1.taskQueue with
      | [] => some st1
      | next :: rest => executeTask { st1 with taskQueue := rest } next
    st2opt.map (fun st2 =>
      { st2 with promises := settle st2.promises task.id (.rejected e) })

/-- `terminate`: every worker is terminated and awaited, then `workers` and
`availableWorkers` are reassigned to `[]`.  Nothing else is touched — in
particular `taskQueue` is left as it was. -/
def terminatePool (st : PoolState) : PoolState :=
  { st with workers := [], availableWorkers := [] }

/-- One observable step of the pool: a submission, a `message` or `error`
event from a live worker, or a shutdown.  Events can only originate from
workers that are still alive (members of `workers`). -/
inductive Step : PoolState → PoolState → Prop where
  | submit {st stNew : PoolState} (data tid : Nat)
      (h : runTask st data = some (stNew, tid)) : Step st stNew
  | message {st stNew : PoolState} (w : Nat) (r : WResult)
      (hw : w ∈ st.workers) (h : onMessage st w r = some stNew) : Step st stNew
  | fault {st stNew : PoolState} (w : Nat) (e : String)
      (hw : w ∈ st.workers) (h : onError st w e = some stNew) : Step st stNew
  | shutdown {st : PoolState} : Step st (terminatePool st)

/-- Zero or more pool steps. -/
inductive Steps : PoolState → PoolState → Prop where
  | refl (st : PoolState) : Steps st st
  | tail {s1 s2 s3 : PoolState} : Steps s1 s2 → Step s2 s3 → Steps s1 s3

/-- States reachable from some freshly constructed pool. -/
inductive Reachable : PoolState → Prop where
  | init (ws : String) (n : Int) : Reachable (initPool ws n)
  | step {st stNew : PoolState} : Reachable st → Step st stNew → Reachable stNew

/-- A value thrown by the handler inside the worker script: either an
`Error` object carrying a message, or anything else. -/
inductive ThrownValue where
  | errObject (msg : String)
  | nonError
deriving DecidableEq, Repr

/-- `error instanceof Error ? error.message : 'Unknown error'`. -/
def describeThrown : ThrownValue → String
  | .errObject m => m
  | .nonError => "Unknown error"

/-- An observable effect of the worker script's message handler: posting a
result back to the parent, or terminating itself. -/
inductive WorkerEffect where
  | post (r : WResult)
  | exitSelf
deriving DecidableEq, Repr

/-- The `parentPort.on('message', ...)` handler of `crypto.worker.ts`,
parameterised by the outcome of the opaque `simulateHeavyEncryption()` call:
on success it posts a single `{success: true, message: ...}` result, on an
uncaught fault it posts a single `{success: false, error: description}`
result; in neither case does it terminate itself. -/
def cryptoWorkerOnMessage (outcome : Except ThrownValue Unit) :
    List WorkerEffect :=
  match outcome with
  | .ok _ =>
      [.post { success := true, error := none,
               message := some "Vitals encrypted successfully" }]
  | .error e =>
      [.post { success := false, error := some (describeThrown e),
               message := none }]

/-- The capacity invariant: idle workers plus busy (dispatched-to) workers
account for the whole requested capacity. -/
abbrev capacityInv (st : PoolState) : Prop :=
  st.availableWorkers.length + st.inflight.length = st.poolSize.toNat

/-- The identifiers of all tasks that are currently dispatched or queued. -/
def activeIds (st : PoolState) : List Nat :=
  st.inflight.map (fun p => p.2.id) ++ st.taskQueue.map (fun t => t.id)

/-- The bookkeeping invariant of reachable pool states: active task
identifiers are pairwise distinct, below the fresh-identifier supply, and
their promises are still pending; identifiers not yet handed out are
pending as well. -/
def PoolInv (st : PoolState) : Prop :=
  (activeIds st).Nodup ∧
  (∀ i ∈ activeIds st, i < st.nextId ∧ st.promises i = .pending) ∧
  (∀ k, st.nextId ≤ k → st.promises k = .pending)

/-- A pool whose workers have all been terminated and whose availability
list is empty — the situation `terminate` leaves behind. -/
def deadPool (st : PoolState) : Prop :=
  st.workers = [] ∧ st.availableWorkers = []

/-- The fulfilment/rejection value produced by the `message` listener. -/
def messageValue (r : WResult) : PromiseState :=
  if r.success then .fulfilled r
  else .rejected (jsOrString r.error "Task failed")

-- Concrete states used by the witnesses below: a pool of capacity one,
-- two submissions (the second queues), a successful completion (which
-- drains the queue), and a third submission.

def exMsg : WResult :=
  { success := true, error := none, message := some "Vitals encrypted successfully" }

def exSt0 : PoolState := initPool "crypto.worker.js" 1

def exSt1 : PoolState := ((runTask exSt0 10).getD (exSt0, 0)).1

def exSt2 : PoolState := ((runTask exSt1 11).getD (exSt1, 0)).1

def exSt3 : PoolState := (onMessage exSt2 0 exMsg).getD exSt2

def exSt4 : PoolState := ((runTask exSt3 12).getD (exSt3, 0)).1

def exErr1 : PoolState := (onError exSt1 0 "boom").getD exSt1

def exDead1 : PoolState :=
  ((runTask (terminatePool exSt0) 7).getD (terminatePool exSt0, 0)).1

def exDead2 : PoolState := ((runTask exDead1 8).getD (exDead1, 0)).1

example : runTask exSt0 10 = some (exSt1, 0) := rfl
example : exSt1.inflight = [(0, { id := 0, data := 10 })] := rfl
example : exSt2.taskQueue = [{ id := 1, data := 11 }] := rfl
example : exSt3.inflight = [(0, { id := 1, data := 11 })] := rfl
example : exSt3.taskQueue = [] := rfl
example : exSt3.promises 0 = .fulfilled exMsg := rfl
example : exErr1.promises 0 = .rejected "boom" := rfl
example : exDead1.taskQueue = [{ id := 0, data := 7 }] := rfl

theorem executeTask_empty (st : PoolState) (t : WorkerTask)
    (h : st.availableWorkers = []) : executeTask st t = none := by
  simp [executeTask, h]

theorem executeTask_pop (st : PoolState) (t : WorkerTask) (w : Nat)
    (h : st.availableWorkers.getLast? = some w) :
    executeTask st t = some { st with
      availableWorkers := st.availableWorkers.dropLast
      inflight := (w, t) :: st.inflight } := by
  simp [executeTask, h]

theorem runTask_enqueue (st : PoolState) (d : Nat)
    (h : st.availableWorkers = []) :
    runTask st d = some
      ({ st with nextId := st.nextId + 1
                 promises := settle st.promises st.nextId .pending
                 taskQueue := st.taskQueue ++ [{ id := st.nextId, data := d }] },
       st.nextId) := by
  simp [runTask, h]

theorem runTask_dispatch (st : PoolState) (d : Nat) (w : Nat)
    (h : st.availableWorkers.getLast? = some w) :
    runTask st d = some
      ({ st with nextId := st.nextId + 1
                 promises := settle st.promises st.nextId .pending
                 availableWorkers := st.availableWorkers.dropLast
                 inflight := (w, { id := st.nextId, data := d }) :: st.inflight },
       st.nextId) := by
  have hne : st.availableWorkers ≠ [] := by
    intro he
    rw [he] at h
    simp at h
  have hlen : 0 < st.availableWorkers.length := List.length_pos.2 hne
  simp [runTask, executeTask, h, hlen]

theorem findInflight_spec (l : List (Nat × WorkerTask)) (w : Nat)
    (t : WorkerTask) (h : findInflight l w = some t) :
    ∃ l1 l2, l = l1 ++ (w, t) :: l2 ∧ (∀ p ∈ l1, p.1 ≠ w) ∧
      removeInflight l w = l1 ++ l2 := by
  induction l with
  | nil => simp [findInflight] at h
  | cons q l ih =>
    by_cases hq : q.1 = w
    · refine ⟨[], l, ?_, by simp, by simp [removeInflight, hq]⟩
      have h2 : q.2 = t := by simpa [findInflight, hq] using h
      cases q
      simp_all
    · have h2 : findInflight l w = some t := by
        simpa [findInflight, hq] using h
      obtain ⟨l1, l2, e1, e2, e3⟩ := ih h2
      refine ⟨q :: l1, l2, by simp [e1], ?_, by simp [removeInflight, hq, e3]⟩
      intro p hp
      rcases List.mem_cons.1 hp with hp | hp
      · subst hp; exact hq
      · exact e2 p hp

theorem mem_of_findInflight (l : List (Nat × WorkerTask)) (w : Nat)
    (t : WorkerTask) (h : findInflight l w = some t) : (w, t) ∈ l := by
  obtain ⟨l1, l2, e1, -, -⟩ := findInflight_spec l w t h
  subst e1
  exact List.mem_append_right _ (List.mem_cons_self _ _)

theorem length_removeInflight (l : List (Nat × WorkerTask)) (w : Nat)
    (t : WorkerTask) (h : findInflight l w = some t) :
    (removeInflight l w).length + 1 = l.length := by
  obtain ⟨l1, l2, e1, -, e3⟩ := findInflight_spec l w t h
  subst e1
  rw [e3]
  simp
  omega

theorem onMessage_skip (st : PoolState) (w : Nat) (r : WResult)
    (hf : findInflight st.inflight w = none) : onMessage st w r = some st := by
  simp [onMessage, hf]

theorem onMessage_found_nil (st : PoolState) (w : Nat) (r : WResult)
    (t : WorkerTask) (hf : findInflight st.inflight w = some t)
    (hq : st.taskQueue = []) :
    onMessage st w r = some { st with
      inflight := removeInflight st.inflight w
      availableWorkers := st.availableWorkers ++ [w]
      promises := settle st.promises t.id (messageValue r) } := by
  by_cases hs : r.success <;>
    simp [onMessage, hf, hq, messageValue, hs]

theorem onMessage_found_cons (st : PoolState) (w : Nat) (r : WResult)
    (t next : WorkerTask) (rest : List WorkerTask)
    (hf : findInflight st.inflight w = some t)
    (hq : st.taskQueue = next :: rest) :
    onMessage st w r = some { st with
      inflight := (w, next) :: removeInflight st.inflight w
      taskQueue := rest
      promises := settle st.promises t.id (messageValue r) } := by
  by_cases hs : r.success <;>
    simp [onMessage, hf, hq, executeTask, List.getLast?_concat,
      List.dropLast_concat, messageValue, hs]

theorem onError_skip (st : PoolState) (w : Nat) (e : String)
    (hf : findInflight st.inflight w = none) : onError st w e = some st := by
  simp [onError, hf]

theorem onError_found_nil (st : PoolState) (w : Nat) (e : String)
    (t : WorkerTask) (hf : findInflight st.inflight w = some t)
    (hq : st.taskQueue = []) :
    onError st w e = some { st with
      inflight := removeInflight st.inflight w
      availableWorkers := st.availableWorkers ++ [w]
      promises := settle st.promises t.id (.rejected e) } := by
  simp [onError, hf, hq]

theorem onError_found_cons (st : PoolState) (w : Nat) (e : String)
    (t next : WorkerTask) (rest : List WorkerTask)
    (hf : findInflight st.inflight w = some t)
    (hq : st.taskQueue = next :: rest) :
    onError st w e = some { st with
      inflight := (w, next) :: removeInflight st.inflight w
      taskQueue := rest
      promises := settle st.promises t.id (.rejected e) } := by
  simp [onError, hf, hq, executeTask, List.getLast?_concat,
    List.dropLast_concat]

theorem executeTask_total (st : PoolState) (t : WorkerTask)
    (h : st.availableWorkers ≠ []) : (executeTask st t).isSome := by
  obtain ⟨w, hw⟩ := Option.isSome_iff_exists.1 (List.getLast?_isSome.2 h)
  rw [executeTask_pop st t w hw]
  rfl

theorem runTask_total (st : PoolState) (d : Nat) : (runTask st d).isSome := by
  cases ha : st.availableWorkers with
  | nil => rw [runTask_enqueue st d ha]; rfl
  | cons x xs =>
    have hne : st.availableWorkers ≠ [] := by simp [ha]
    obtain ⟨w, hw⟩ := Option.isSome_iff_exists.1 (List.getLast?_isSome.2 hne)
    rw [runTask_dispatch st d w hw]
    rfl

theorem onMessage_total (st : PoolState) (w : Nat) (r : WResult) :
    (onMessage st w r).isSome := by
  cases hf : findInflight st.inflight w with
  | none => rw [onMessage_skip st w r hf]; rfl
  | some t =>
    cases hq : st.taskQueue with
    | nil => rw [onMessage_found_nil st w r t hf hq]; rfl
    | cons next rest => rw [onMessage_found_cons st w r t next rest hf hq]; rfl

theorem onError_total (st : PoolState) (w : Nat) (e : String) :
    (onError st w e).isSome := by
  cases hf : findInflight st.inflight w with
  | none => rw [onError_skip st w e hf]; rfl
  | some t =>
    cases hq : st.taskQueue with
    | nil => rw [onError_found_nil st w e t hf hq]; rfl
    | cons next rest => rw [onError_found_cons st w e t next rest hf hq]; rfl

theorem capacityInv_runTask (st st2 : PoolState) (d tid : Nat)
    (hc : capacityInv st) (h : runTask st d = some (st2, tid)) :
    capacityInv st2 := by
  cases ha : st.availableWorkers with
  | nil =>
    rw [runTask_enqueue st d ha] at h
    obtain ⟨rfl, rfl⟩ : st2 = _ ∧ tid = st.nextId := by
      injection h with h2
      injection h2 with h3 h4
      exact ⟨h3.symm, h4.symm⟩
    simpa using hc
  | cons x xs =>
    have hne : st.availableWorkers ≠ [] := by simp [ha]
    obtain ⟨w, hw⟩ := Option.isSome_iff_exists.1 (List.getLast?_isSome.2 hne)
    rw [runTask_dispatch st d w hw] at h
    obtain ⟨rfl, rfl⟩ : st2 = _ ∧ tid = st.nextId := by
      injection h with h2
      injection h2 with h3 h4
      exact ⟨h3.symm, h4.symm⟩
    have hlen : 0 < st.availableWorkers.length := List.length_pos.2 hne
    simp only [capacityInv] at hc ⊢
    simp only [List.length_dropLast, List.length_cons]
    omega

theorem capacityInv_onMessage (st st2 : PoolState) (w : Nat) (r : WResult)
    (hc : capacityInv st) (h : onMessage st w r = some st2) :
    capacityInv st2 := by
  cases hf : findInflight st.inflight w with
  | none =>
    rw [onMessage_skip st w r hf] at h
    injection h with h2
    exact h2 ▸ hc
  | some t =>
    have hrm := length_removeInflight st.inflight w t hf
    cases hq : st.taskQueue with
    | nil =>
      rw [onMessage_found_nil st w r t hf hq] at h
      injection h with h2
      subst h2
      simp only [capacityInv] at hc ⊢
      simp only [List.length_append, List.length_cons, List.length_nil]
      omega
    | cons next rest =>
      rw [onMessage_found_cons st w r t next rest hf hq] at h
      injection h with h2
      subst h2
      simp only [capacityInv] at hc ⊢
      simp only [List.length_cons]
      omega

theorem settle_same (ps : Nat → PromiseState) (tid : Nat) (v : PromiseState) :
    settle ps tid v tid = v := by
  simp [settle]

theorem settle_other (ps : Nat → PromiseState) (tid k : Nat) (v : PromiseState)
    (h : k ≠ tid) : settle ps tid v k = ps k := by
  simp [settle, h]

theorem poolInv_init (ws : String) (n : Int) : PoolInv (initPool ws n) := by
  refine ⟨by simp [activeIds, initPool], by simp [activeIds, initPool], ?_⟩
  intro k _
  rfl

theorem poolInv_runTask (st st2 : PoolState) (d tid : Nat)
    (h : runTask st d = some (st2, tid)) (hinv : PoolInv st) : PoolInv st2 := by
  obtain ⟨hnd, hact, hfresh⟩ := hinv
  have hfr : st.nextId ∉ activeIds st := by
    intro hmem
    exact absurd (hact _ hmem).1 (lt_irrefl _)
  cases ha : st.availableWorkers with
  | nil =>
    rw [runTask_enqueue st d ha] at h
    obtain ⟨rfl, rfl⟩ : st2 = _ ∧ tid = st.nextId := by
      injection h with h2
      injection h2 with h3 h4
      exact ⟨h3.symm, h4.symm⟩
    have hids : activeIds
        { st with
          nextId := st.nextId + 1,
          promises := settle st.promises st.nextId .pending,
          taskQueue := st.taskQueue ++ [{ id := st.nextId, data := d }] } =
        activeIds st ++ [st.nextId] := by
      simp [activeIds]
    refine ⟨?_, ?_, ?_⟩
    · rw [hids, List.nodup_append]
      refine ⟨hnd, List.nodup_singleton _, ?_⟩
      intro a ha2 hb
      rw [List.mem_singleton.1 hb] at ha2
      exact hfr ha2
    · intro i hi
      rw [hids] at hi
      rcases List.mem_append.1 hi with hi | hi
      · have h2 := hact i hi
        have hne : i ≠ st.nextId := Nat.ne_of_lt h2.1
        constructor
        · exact Nat.lt_succ_of_lt h2.1
        · show settle st.promises st.nextId .pending i = .pending
          rw [settle_other _ _ _ _ hne]
          exact h2.2
      · rw [List.mem_singleton.1 hi]
        exact ⟨Nat.lt_succ_self _, settle_same _ _ _⟩
    · intro k hk
      have hk2 : st.nextId + 1 ≤ k := hk
      show settle st.promises st.nextId .pending k = .pending
      have hne : k ≠ st.nextId := by omega
      rw [settle_other _ _ _ _ hne]
      exact hfresh k (by omega)
  | cons x xs =>
    have hne0 : st.availableWorkers ≠ [] := by simp [ha]
    obtain ⟨w, hw⟩ := Option.isSome_iff_exists.1 (List.getLast?_isSome.2 hne0)
    rw [runTask_dispatch st d w hw] at h
    obtain ⟨rfl, rfl⟩ : st2 = _ ∧ tid = st.nextId := by
      injection h with h2
      injection h2 with h3 h4
      exact ⟨h3.symm, h4.symm⟩
    have hids : activeIds
        { st with
          nextId := st.nextId + 1,
          promises := settle st.promises st.nextId .pending,
          availableWorkers := st.availableWorkers.dropLast,
          inflight := (w, { id := st.nextId, data := d }) :: st.inflight } =
        st.nextId :: activeIds st := by
      simp [activeIds]
    refine ⟨?_, ?_, ?_⟩
    · rw [hids, List.nodup_cons]
      exact ⟨hfr, hnd⟩
    · intro i hi
      rw [hids] at hi
      rcases List.mem_cons.1 hi with hi | hi
      · rw [hi]
        exact ⟨Nat.lt_succ_self _, settle_same _ _ _⟩
      · have h2 := hact i hi
        have hne : i ≠ st.nextId := Nat.ne_of_lt h2.1
        refine ⟨Nat.lt_succ_of_lt h2.1, ?_⟩
        show settle st.promises st.nextId .pending i = .pending
        rw [settle_other _ _ _ _ hne]
        exact h2.2
    · intro k hk
      have hk2 : st.nextId + 1 ≤ k := hk
      show settle st.promises st.nextId .pending k = .pending
      have hne : k ≠ st.nextId := by omega
      rw [settle_other _ _ _ _ hne]
      exact hfresh k (by omega)

theorem poolInv_of_perm (st st2 : PoolState) (t : WorkerTask)
    (v : PromiseState) (hperm : (activeIds st).Perm (t.id :: activeIds st2))
    (hnext : st2.nextId = st.nextId)
    (hprom : st2.promises = settle st.promises t.id v)
    (hinv : PoolInv st) : PoolInv st2 := by
  obtain ⟨hnd, hact, hfresh⟩ := hinv
  have hnd2 : (t.id :: activeIds st2).Nodup := hperm.nodup_iff.1 hnd
  have htne : t.id ∉ activeIds st2 := (List.nodup_cons.1 hnd2).1
  have htmem : t.id ∈ activeIds st := hperm.mem_iff.2 (List.mem_cons_self _ _)
  refine ⟨(List.nodup_cons.1 hnd2).2, ?_, ?_⟩
  · intro i hi
    have hist : i ∈ activeIds st := hperm.mem_iff.2 (List.mem_cons_of_mem _ hi)
    have hne : i ≠ t.id := by
      intro he
      exact htne (he ▸ hi)
    rw [hnext, hprom, settle_other _ _ _ _ hne]
    exact hact i hist
  · intro k hk
    rw [hnext] at hk
    have hlt := (hact _ htmem).1
    have hkt : k ≠ t.id := by omega
    rw [hprom, settle_other _ _ _ _ hkt]
    exact hfresh k hk

theorem poolInv_reclaim_nil (st : PoolState) (w : Nat) (t : WorkerTask)
    (v : PromiseState) (hf : findInflight st.inflight w = some t)
    (hq : st.taskQueue = []) (hinv : PoolInv st) :
    PoolInv { st with
      inflight := removeInflight st.inflight w
      availableWorkers := st.availableWorkers ++ [w]
      promises := settle st.promises t.id v } := by
  obtain ⟨l1, l2, e1, -, e3⟩ := findInflight_spec st.inflight w t hf
  refine poolInv_of_perm st _ t v ?_ rfl rfl hinv
  have h1 : activeIds st =
      l1.map (fun p => p.2.id) ++ t.id :: l2.map (fun p => p.2.id) := by
    simp [activeIds, e1, hq]
  have h2 : activeIds { st with
      inflight := removeInflight st.inflight w
      availableWorkers := st.availableWorkers ++ [w]
      promises := settle st.promises t.id v } =
      l1.map (fun p => p.2.id) ++ l2.map (fun p => p.2.id) := by
    simp [activeIds, e3, hq]
  rw [h1, h2]
  exact List.perm_middle

theorem poolInv_reclaim_cons (st : PoolState) (w : Nat) (t next : WorkerTask)
    (rest : List WorkerTask) (v : PromiseState)
    (hf : findInflight st.inflight w = some t)
    (hq : st.taskQueue = next :: rest) (hinv : PoolInv st) :
    PoolInv { st with
      inflight := (w, next) :: removeInflight st.inflight w
      taskQueue := rest
      promises := settle st.promises t.id v } := by
  obtain ⟨l1, l2, e1, -, e3⟩ := findInflight_spec st.inflight w t hf
  refine poolInv_of_perm st _ t v ?_ rfl rfl hinv
  have h1 : activeIds st =
      l1.map (fun p => p.2.id) ++ t.id :: (l2.map (fun p => p.2.id) ++
        next.id :: rest.map (fun q => q.id)) := by
    simp [activeIds, e1, hq]
  have h2 : activeIds { st with
      inflight := (w, next) :: removeInflight st.inflight w
      taskQueue := rest
      promises := settle st.promises t.id v } =
      next.id :: (l1.map (fun p => p.2.id) ++ (l2.map (fun p => p.2.id) ++
        rest.map (fun q => q.id))) := by
    simp [activeIds, e3]
  rw [h1, h2]
  refine List.Perm.trans List.perm_middle (List.Perm.cons _ ?_)
  simp only [← List.append_assoc]
  exact List.perm_middle

theorem poolInv_onMessage (st st2 : PoolState) (w : Nat) (r : WResult)
    (h : onMessage st w r = some st2) (hinv : PoolInv st) : PoolInv st2 := by
  cases hf : findInflight st.inflight w with
  | none =>
    rw [onMessage_skip st w r hf] at h
    injection h with h2
    exact h2 ▸ hinv
  | some t =>
    cases hq : st.taskQueue with
    | nil =>
      rw [onMessage_found_nil st w r t hf hq] at h
      injection h with h2
      exact h2 ▸ poolInv_reclaim_nil st w t (messageValue r) hf hq hinv
    | cons next rest =>
      rw [onMessage_found_cons st w r t next rest hf hq] at h
      injection h with h2
      exact h2 ▸ poolInv_reclaim_cons st w t next rest (messageValue r) hf hq hinv

theorem poolInv_onError (st st2 : PoolState) (w : Nat) (e : String)
    (h : onError st w e = some st2) (hinv : PoolInv st) : PoolInv st2 := by
  cases hf : findInflight st.inflight w with
  | none =>
    rw [onError_skip st w e hf] at h
    injection h with h2
    exact h2 ▸ hinv
  | some t =>
    cases hq : st.taskQueue with
    | nil =>
      rw [onError_found_nil st w e t hf hq] at h
      injection h with h2
      exact h2 ▸ poolInv_reclaim_nil st w t (.rejected e) hf hq hinv
    | cons next rest =>
      rw [onError_found_cons st w e t next rest hf hq] at h
      injection h with h2
      exact h2 ▸ poolInv_reclaim_cons st w t next rest (.rejected e) hf hq hinv

theorem poolInv_terminate (st : PoolState) (hinv : PoolInv st) :
    PoolInv (terminatePool st) :=
  hinv

theorem poolInv_step (st st2 : PoolState) (h : Step st st2)
    (hinv : PoolInv st) : PoolInv st2 := by
  cases h with
  | submit d tid hr => exact poolInv_runTask st st2 d tid hr hinv
  | message w r hw hm => exact poolInv_onMessage st st2 w r hm hinv
  | fault w e hw he => exact poolInv_onError st st2 w e he hinv
  | shutdown => exact poolInv_terminate st hinv

theorem reachable_poolInv (st : PoolState) (h : Reachable st) : PoolInv st := by
  induction h with
  | init ws n => exact poolInv_init ws n
  | step hr hs ih => exact poolInv_step _ _ hs ih

theorem runTask_promises (st st2 : PoolState) (d tid : Nat)
    (h : runTask st d = some (st2, tid)) :
    tid = st.nextId ∧
    st2.promises = settle st.promises st.nextId .pending ∧
    st2.nextId = st.nextId + 1 := by
  cases ha : st.availableWorkers with
  | nil =>
    rw [runTask_enqueue st d ha] at h
    injection h with h2
    injection h2 with h3 h4
    subst h3
    subst h4
    exact ⟨rfl, rfl, rfl⟩
  | cons x xs =>
    have hne : st.availableWorkers ≠ [] := by simp [ha]
    obtain ⟨w0, hw0⟩ := Option.isSome_iff_exists.1 (List.getLast?_isSome.2 hne)
    rw [runTask_dispatch st d w0 hw0] at h
    injection h with h2
    injection h2 with h3 h4
    subst h3
    subst h4
    exact ⟨rfl, rfl, rfl⟩

theorem step_keeps_settled (st st2 : PoolState) (h : Step st st2)
    (hinv : PoolInv st) (tid : Nat) (hne : st.promises tid ≠ .pending) :
    st2.promises tid = st.promises tid := by
  obtain ⟨hnd, hact, hfresh⟩ := hinv
  cases h with
  | submit d tid0 hr =>
    obtain ⟨-, hp, -⟩ := runTask_promises st st2 d tid0 hr
    rw [hp]
    by_cases he : tid = st.nextId
    · subst he
      exact absurd (hfresh st.nextId (le_refl _)) hne
    · exact settle_other _ _ _ _ he
  | message w r hw hm =>
    cases hf : findInflight st.inflight w with
    | none =>
      rw [onMessage_skip st w r hf] at hm
      injection hm with h2
      rw [← h2]
    | some t =>
      have htmem : t.id ∈ activeIds st :=
        List.mem_append_left _
          (List.mem_map_of_mem _ (mem_of_findInflight st.inflight w t hf))
      have hpend : st.promises t.id = .pending := (hact _ htmem).2
      have hne2 : tid ≠ t.id := by
        intro he
        rw [he] at hne
        exact hne hpend
      cases hq : st.taskQueue with
      | nil =>
        rw [onMessage_found_nil st w r t hf hq] at hm
        injection hm with h2
        rw [← h2]
        exact settle_other _ _ _ _ hne2
      | cons next rest =>
        rw [onMessage_found_cons st w r t next rest hf hq] at hm
        injection hm with h2
        rw [← h2]
        exact settle_other _ _ _ _ hne2
  | fault w e hw hm =>
    cases hf : findInflight st.inflight w with
    | none =>
      rw [onError_skip st w e hf] at hm
      injection hm with h2
      rw [← h2]
    | some t =>
      have htmem : t.id ∈ activeIds st :=
        List.mem_append_left _
          (List.mem_map_of_mem _ (mem_of_findInflight st.inflight w t hf))
      have hpend : st.promises t.id = .pending := (hact _ htmem).2
      have hne2 : tid ≠ t.id := by
        intro he
        rw [he] at hne
        exact hne hpend
      cases hq : st.taskQueue with
      | nil =>
        rw [onError_found_nil st w e t hf hq] at hm
        injection hm with h2
        rw [← h2]
        exact settle_other _ _ _ _ hne2
      | cons next rest =>
        rw [onError_found_cons st w e t next rest hf hq] at hm
        injection hm with h2
        rw [← h2]
        exact settle_other _ _ _ _ hne2
  | shutdown => rfl

theorem deadPool_step (st st2 : PoolState) (hd : deadPool st)
    (h : Step st st2) :
    deadPool st2 ∧
      ∀ tid, st.promises tid = .pending → st2.promises tid = .pending := by
  obtain ⟨hw0, ha0⟩ := hd
  cases h with
  | submit d tid0 hr =>
    rw [runTask_enqueue st d ha0] at hr
    injection hr with h2
    injection h2 with h3 h4
    subst h3
    refine ⟨⟨hw0, ha0⟩, ?_⟩
    intro tid hp
    by_cases he : tid = st.nextId
    · subst he
      exact settle_same _ _ _
    · show settle st.promises st.nextId .pending tid = .pending
      rw [settle_other _ _ _ _ he]
      exact hp
  | message w r hw hm =>
    rw [hw0] at hw
    exact absurd hw (List.not_mem_nil w)
  | fault w e hw hm =>
    rw [hw0] at hw
    exact absurd hw (List.not_mem_nil w)
  | shutdown =>
    exact ⟨⟨rfl, rfl⟩, fun tid hp => hp⟩

theorem deadPool_steps (st st2 : PoolState) (hd : deadPool st)
    (h : Steps st st2) :
    deadPool st2 ∧
      ∀ tid, st.promises tid = .pending → st2.promises tid = .pending := by
  induction h with
  | refl => exact ⟨hd, fun tid hp => hp⟩
  | tail hs hstep ih =>
    obtain ⟨hd2, hkeep⟩ := ih
    obtain ⟨hd3, hkeep2⟩ := deadPool_step _ _ hd2 hstep
    exact ⟨hd3, fun tid hp => hkeep2 tid (hkeep tid hp)⟩

theorem capacityInv_onError (st st2 : PoolState) (w : Nat) (e : String)
    (hc : capacityInv st) (h : onError st w e = some st2) :
    capacityInv st2 := by
  cases hf : findInflight st.inflight w with
  | none =>
    rw [onError_skip st w e hf] at h
    injection h with h2
    exact h2 ▸ hc
  | some t =>
    have hrm := length_removeInflight st.inflight w t hf
    cases hq : st.taskQueue with
    | nil =>
      rw [onError_found_nil st w e t hf hq] at h
      injection h with h2
      subst h2
      simp only [capacityInv] at hc ⊢
      simp only [List.length_append, List.length_cons, List.length_nil]
      omega
    | cons next rest =>
      rw [onError_found_cons st w e t next rest hf hq] at h
      injection h with h2
      subst h2
      simp only [capacityInv] at hc ⊢
      simp only [List.length_cons]
      omega

-- Reachability of the concrete example states, used by the witnesses.

theorem reach_exSt0 : Reachable exSt0 :=
  Reachable.init "crypto.worker.js" 1

theorem step_exSt01 : Step exSt0 exSt1 :=
  Step.submit 10 0 rfl

theorem step_exSt12 : Step exSt1 exSt2 :=
  Step.submit 11 1 rfl

theorem step_exSt23 : Step exSt2 exSt3 :=
  Step.message 0 exMsg (by decide) rfl

theorem step_exSt34 : Step exSt3 exSt4 :=
  Step.submit 12 2 rfl

theorem reach_exSt3 : Reachable exSt3 :=
  Reachable.step
    (Reachable.step (Reachable.step reach_exSt0 step_exSt01) step_exSt12)
    step_exSt23

/-- C1, counterexample: constructing a pool with capacity `0` does not fail
with a `ConfigurationError` — it succeeds and silently builds a pool with
zero workers (the constructor contains no validation at all). -/
theorem construct_zero_capacity_succeeds :
    constructPool "crypto.worker.js" 0 =
      .ok (initPool "crypto.worker.js" 0) ∧
    (initPool "crypto.worker.js" 0).workers = [] :=
  ⟨rfl, rfl⟩

/-- C1, amended: construction never fails, whatever the requested capacity;
it creates `max capacity 0` workers — in particular, exactly `capacity`
workers when `capacity ≥ 1`, and zero workers when `capacity ≤ 0` — all of
which start idle, with an empty queue and nothing in flight. -/
theorem construct_never_fails (ws : String) (n : Int) :
    constructPool ws n = .ok (initPool ws n) ∧
    (initPool ws n).workers.length = n.toNat ∧
    (initPool ws n).availableWorkers = (initPool ws n).workers ∧
    (initPool ws n).taskQueue = [] ∧
    (initPool ws n).inflight = [] :=
  ⟨rfl, List.length_range _, rfl, rfl, rfl⟩

/-- C2, counterexample: calling `terminate` on a pool state whose queue
holds one pending task clears `workers` and `availableWorkers` but leaves
the queue non-empty, so the three collections are not all cleared. -/
theorem terminate_leaves_queue :
    (terminatePool exSt2).workers = [] ∧
    (terminatePool exSt2).availableWorkers = [] ∧
    (terminatePool exSt2).taskQueue = [{ id := 1, data := 11 }] ∧
    (terminatePool exSt2).taskQueue ≠ [] :=
  ⟨rfl, rfl, rfl, by decide⟩

/-- C2, amended: after `terminate` returns, the workers set and the
idle/available list are empty, but the pending-task queue (and every other
field) is left exactly as it was — the queue is not cleared. -/
theorem terminate_clears_workers_only (st : PoolState) :
    (terminatePool st).workers = [] ∧
    (terminatePool st).availableWorkers = [] ∧
    (terminatePool st).taskQueue = st.taskQueue ∧
    (terminatePool st).inflight = st.inflight ∧
    (terminatePool st).promises = st.promises :=
  ⟨rfl, rfl, rfl, rfl, rfl⟩

/-- C3: each completion path detaches both listeners before settling, so a
promise is settled at most once — along any step taken from a reachable
pool state, a promise that is already fulfilled or rejected keeps exactly
its value: it is never settled a second time, and never switches between
fulfilled and rejected. -/
theorem settled_promise_stable (st st2 : PoolState) (hr : Reachable st)
    (hs : Step st st2) (tid : Nat) (hne : st.promises tid ≠ .pending) :
    st2.promises tid = st.promises tid :=
  step_keeps_settled st st2 hs (reachable_poolInv st hr) tid hne

/-- C3, witness: in the concrete run, promise `0` is fulfilled in `exSt3`,
and the next submission leaves it untouched. -/
theorem settled_promise_stable_witness :
    exSt3.promises 0 ≠ .pending ∧ exSt4.promises 0 = exSt3.promises 0 :=
  ⟨by decide,
   settled_promise_stable exSt3 exSt4 reach_exSt3 step_exSt34 0 (by decide)⟩

/-- C4: when a worker completes while the queue is non-empty, the head of
the queue (the oldest pending task) is removed and dispatched to the freed
worker before anything later in the queue; the rest of the queue and the
availability list are untouched. -/
theorem completion_dispatches_queue_head (st st2 : PoolState) (w : Nat)
    (r : WResult) (task next : WorkerTask) (rest : List WorkerTask)
    (hf : findInflight st.inflight w = some task)
    (hq : st.taskQueue = next :: rest)
    (h : onMessage st w r = some st2) :
    st2.taskQueue = rest ∧
    st2.inflight = (w, next) :: removeInflight st.inflight w ∧
    st2.availableWorkers = st.availableWorkers := by
  rw [onMessage_found_cons st w r task next rest hf hq] at h
  injection h with h2
  rw [← h2]
  exact ⟨rfl, rfl, rfl⟩

/-- C4, witness: in the concrete run the completion of task `0` dispatches
the queued task `1` to the freed worker. -/
theorem completion_dispatches_queue_head_witness :
    exSt3.taskQueue = [] ∧
    exSt3.inflight =
      (0, { id := 1, data := 11 }) :: removeInflight exSt2.inflight 0 ∧
    exSt3.availableWorkers = exSt2.availableWorkers :=
  completion_dispatches_queue_head exSt2 exSt3 0 exMsg
    { id := 0, data := 10 } { id := 1, data := 11 } [] rfl rfl rfl

/-- C5: the capacity invariant — idle workers plus busy workers equal the
pool capacity.  It holds after construction, and each of `runTask`/submit
(a dispatch removes exactly one worker from the idle list) and the two
worker-completion handlers (a completion returns exactly one worker to the
idle list, minus any immediate re-dispatch) preserves it. -/
theorem capacity_invariant :
    (∀ ws n, capacityInv (initPool ws n)) ∧
    (∀ st st2 d tid, capacityInv st → runTask st d = some (st2, tid) →
      capacityInv st2) ∧
    (∀ st st2 w r, capacityInv st → onMessage st w r = some st2 →
      capacityInv st2) ∧
    (∀ st st2 w e, capacityInv st → onError st w e = some st2 →
      capacityInv st2) := by
  refine ⟨?_, capacityInv_runTask, capacityInv_onMessage, capacityInv_onError⟩
  intro ws n
  simp [capacityInv, initPool]

/-- C5, witness: the invariant carried across the concrete run. -/
theorem capacity_invariant_witness :
    capacityInv exSt1 ∧ capacityInv exSt3 :=
  ⟨capacity_invariant.2.1 exSt0 exSt1 10 0 rfl rfl,
   capacity_invariant.2.2.1 exSt2 exSt3 0 exMsg
     (capacity_invariant.2.1 exSt1 exSt2 11 1
       (capacity_invariant.2.1 exSt0 exSt1 10 0 rfl rfl) rfl) rfl⟩

/-- C6: `runTask` never fails synchronously — it always returns a promise
(whose identifier is fresh and whose state is pending). If the idle list is
non-empty the task is dispatched immediately to the popped idle worker;
otherwise it is appended to the tail of the queue. -/
theorem runTask_dispatch_or_enqueue (st : PoolState) (d : Nat) :
    (runTask st d).isSome ∧
    ∀ st2 tid, runTask st d = some (st2, tid) →
      tid = st.nextId ∧
      st2.promises tid = .pending ∧
      (st.availableWorkers = [] →
        st2.taskQueue = st.taskQueue ++ [{ id := st.nextId, data := d }] ∧
        st2.inflight = st.inflight) ∧
      (∀ w, st.availableWorkers.getLast? = some w →
        st2.availableWorkers = st.availableWorkers.dropLast ∧
        st2.inflight = (w, { id := st.nextId, data := d }) :: st.inflight ∧
        st2.taskQueue = st.taskQueue) := by
  refine ⟨runTask_total st d, ?_⟩
  intro st2 tid h
  by_cases ha : st.availableWorkers = []
  · rw [runTask_enqueue st d ha] at h
    injection h with h2
    injection h2 with h3 h4
    subst h3
    subst h4
    refine ⟨rfl, settle_same _ _ _, fun _ => ⟨rfl, rfl⟩, ?_⟩
    intro w hw
    rw [ha] at hw
    simp at hw
  · obtain ⟨w0, hw0⟩ := Option.isSome_iff_exists.1 (List.getLast?_isSome.2 ha)
    rw [runTask_dispatch st d w0 hw0] at h
    injection h with h2
    injection h2 with h3 h4
    subst h3
    subst h4
    refine ⟨rfl, settle_same _ _ _, ?_, ?_⟩
    · intro he
      exact absurd he ha
    · intro w hw
      rw [hw0] at hw
      injection hw with h5
      subst h5
      exact ⟨rfl, rfl, rfl⟩

/-- C6, witness: the first concrete submission dispatches immediately, the
second (no idle worker) is enqueued; both promises are created pending. -/
theorem runTask_dispatch_or_enqueue_witness :
    exSt1.promises 0 = .pending ∧
    exSt1.inflight = (0, { id := 0, data := 10 }) :: exSt0.inflight ∧
    exSt2.taskQueue = exSt1.taskQueue ++ [{ id := 1, data := 11 }] := by
  have h1 := (runTask_dispatch_or_enqueue exSt0 10).2 exSt1 0 rfl
  have h2 := (runTask_dispatch_or_enqueue exSt1 11).2 exSt2 1 rfl
  exact ⟨h1.2.1, (h1.2.2.2 0 rfl).2.1, (h2.2.2.1 rfl).1⟩

/-- C7: when a worker with a task in flight emits a worker-level `error`
event, the handler never crashes (it always produces a successor state),
reclaims that worker onto the idle list, dispatches the next queued task if
any, and rejects exactly the in-flight task's promise with the fault —
every other promise is left untouched. -/
theorem worker_fault_isolated (st : PoolState) (w : Nat) (e : String)
    (task : WorkerTask) (hf : findInflight st.inflight w = some task) :
    (onError st w e).isSome ∧
    ∀ st2, onError st w e = some st2 →
      st2.promises task.id = .rejected e ∧
      (∀ j, j ≠ task.id → st2.promises j = st.promises j) ∧
      (st.taskQueue = [] →
        st2.availableWorkers = st.availableWorkers ++ [w] ∧
        st2.inflight = removeInflight st.inflight w ∧
        st2.taskQueue = []) ∧
      (∀ next rest, st.taskQueue = next :: rest →
        st2.taskQueue = rest ∧
        st2.inflight = (w, next) :: removeInflight st.inflight w ∧
        st2.availableWorkers = st.availableWorkers) := by
  refine ⟨onError_total st w e, ?_⟩
  intro st2 h
  cases hql : st.taskQueue with
  | nil =>
    have hq : st.taskQueue = [] := hql
    rw [onError_found_nil st w e task hf hq] at h
    injection h with h2
    subst h2
    refine ⟨settle_same _ _ _, ?_, fun _ => ⟨rfl, rfl, hq⟩, ?_⟩
    · intro j hj
      exact settle_other _ _ _ _ hj
    · intro next rest he
      simp at he
  | cons n0 r0 =>
    have hq : st.taskQueue = n0 :: r0 := hql
    rw [onError_found_cons st w e task n0 r0 hf hq] at h
    injection h with h2
    subst h2
    refine ⟨settle_same _ _ _, ?_, ?_, ?_⟩
    · intro j hj
      exact settle_other _ _ _ _ hj
    · intro he
      simp at he
    · intro next rest he
      injection he with e1 e2
      subst e1
      subst e2
      exact ⟨rfl, rfl, rfl⟩

/-- C7, witness: a concrete worker fault rejects the in-flight task's
promise with the fault, leaves the sibling promise untouched, and returns
the worker to the idle list. -/
theorem worker_fault_isolated_witness :
    exErr1.promises 0 = .rejected "boom" ∧
    exErr1.promises 1 = exSt1.promises 1 ∧
    exErr1.availableWorkers = exSt1.availableWorkers ++ [0] := by
  have h := (worker_fault_isolated exSt1 0 "boom" { id := 0, data := 10 }
    rfl).2 exErr1 rfl
  exact ⟨h.1, h.2.1 1 (by decide), (h.2.2.1 rfl).1⟩

/-- C8: for every payload the worker script handles, it posts exactly one
result message — `{success: true, ...}` when the handler returns,
`{success: false, error: description}` when the handler raises an uncaught
fault — and in neither case does it terminate itself. -/
theorem crypto_worker_exactly_one_message :
    (∀ oc, (cryptoWorkerOnMessage oc).length = 1 ∧
      WorkerEffect.exitSelf ∉ cryptoWorkerOnMessage oc) ∧
    (∀ e, cryptoWorkerOnMessage (.error e) =
      [.post { success := false, error := some (describeThrown e),
               message := none }]) ∧
    cryptoWorkerOnMessage (.ok ()) =
      [.post { success := true, error := none,
               message := some "Vitals encrypted successfully" }] := by
  refine ⟨?_, fun e => rfl, rfl⟩
  intro oc
  cases oc with
  | ok u => exact ⟨rfl, by simp [cryptoWorkerOnMessage]⟩
  | error e => exact ⟨rfl, by simp [cryptoWorkerOnMessage]⟩

/-- C8, witness: a concrete faulting handler posts exactly one message. -/
theorem crypto_worker_exactly_one_message_witness :
    (cryptoWorkerOnMessage (.error .nonError)).length = 1 :=
  (crypto_worker_exactly_one_message.1 (.error .nonError)).1

/-- C9: the unchecked `availableWorkers.pop()!` in `executeTask` never
yields `undefined`: the pop succeeds whenever the availability list is
non-empty, and every caller of `executeTask` — `runTask` under its
`length > 0` guard, and the two completion handlers, which push the freed
worker back before draining the queue — always invokes it that way, so all
of `runTask`, `onMessage` and `onError` succeed on every state. -/
theorem available_pop_never_fails :
    (∀ st t, st.availableWorkers ≠ [] → (executeTask st t).isSome) ∧
    (∀ st d, (runTask st d).isSome) ∧
    (∀ st w r, (onMessage st w r).isSome) ∧
    (∀ st w e, (onError st w e).isSome) :=
  ⟨executeTask_total, runTask_total, onMessage_total, onError_total⟩

/-- C9, witness: the pop at a concrete non-empty availability list, and a
concrete completion that drains a non-empty queue. -/
theorem available_pop_never_fails_witness :
    (executeTask exSt0 { id := 0, data := 5 }).isSome ∧
    (onMessage exSt2 0 exMsg).isSome :=
  ⟨available_pop_never_fails.1 exSt0 { id := 0, data := 5 } (by decide),
   available_pop_never_fails.2.2.1 exSt2 0 exMsg⟩

/-- C10: the pool still accepts submissions after `terminate`: `runTask` on
a terminated pool always succeeds, appends the task to the queue (the
availability list is empty), and returns a pending promise that no
subsequent sequence of pool steps can ever settle — no worker remains alive
to complete, so the promise stays pending forever. -/
theorem post_terminate_submissions_never_settle (st0 : PoolState) (d : Nat) :
    (runTask (terminatePool st0) d).isSome ∧
    ∀ st2 tid, runTask (terminatePool st0) d = some (st2, tid) →
      tid = st0.nextId ∧
      st2.workers = [] ∧
      st2.availableWorkers = [] ∧
      st2.taskQueue = st0.taskQueue ++ [{ id := st0.nextId, data := d }] ∧
      st2.promises tid = .pending ∧
      ∀ st3, Steps st2 st3 → st3.promises tid = .pending := by
  refine ⟨runTask_total _ d, ?_⟩
  intro st2 tid h
  rw [runTask_enqueue (terminatePool st0) d rfl] at h
  injection h with h2
  injection h2 with h3 h4
  subst h3
  subst h4
  refine ⟨rfl, rfl, rfl, rfl, settle_same _ _ _, ?_⟩
  intro st3 hsteps
  exact (deadPool_steps _ _ ⟨rfl, rfl⟩ hsteps).2 _ (settle_same _ _ _)

/-- C10, witness: a concrete post-terminate submission is queued with a
pending promise, and the promise is still pending after a further step. -/
theorem post_terminate_submissions_never_settle_witness :
    exDead1.promises 0 = .pending ∧ exDead2.promises 0 = .pending := by
  have h := (post_terminate_submissions_never_settle exSt0 7).2 exDead1 0 rfl
  exact ⟨h.2.2.2.2.1,
    h.2.2.2.2.2 exDead2 (Steps.tail (Steps.refl _) (Step.submit 8 1 rfl))⟩
